import Mathlib

/-!
Verification of the Gruntz-style symbolic limit engine (`limits.py`).

The expression kernel (`sym`) consumed by `limits.py` is not part of the
sources, so it is modelled from the specification (section 3 "Data model",
section 6 "External interfaces") and from the function classes in
`sympy/core/functions.py` (the `exp`/`log` evaluation rules).  Rationals are
a normalised numerator/denominator pair so that every definition computes
by kernel reduction.  All functions of `limits.py` are translated one to
one; the mutually recursive cluster (`limitinf`, `mrvleadterm`, `mrv`,
`max`, `compare`, `rewrite`) takes an explicit fuel argument and returns
`Option` results, `none` standing for a raised exception or exhausted fuel.
-/

namespace Gruntz

/-- Modelled from the spec: `Rational(p, q)` with `q > 0` in lowest terms.
The kernel is absent from the sources; this is an executable normalised
fraction type. -/
structure Q where
  num : Int
  den : Nat
deriving DecidableEq, Repr

/-- Normalise a fraction `n / d` (sign into the numerator, gcd cancelled). -/
def Q.norm (n d : Int) : Q :=
  if d = 0 then ⟨0, 0⟩
  else
    let s : Int := if d < 0 then -1 else 1
    let n' := s * n
    let d' := (s * d).toNat
    let g := Nat.gcd n'.natAbs d'
    ⟨n' / g, d' / g⟩

def Q.add (a b : Q) : Q := Q.norm (a.num * b.den + b.num * a.den) (a.den * b.den)

def Q.neg (a : Q) : Q := ⟨-a.num, a.den⟩

def Q.mul (a b : Q) : Q := Q.norm (a.num * b.num) (a.den * b.den)

def Q.inv (a : Q) : Q := Q.norm a.den a.num

def Q.npow (q : Q) : Nat → Q
  | 0 => ⟨1, 1⟩
  | n+1 => q.mul (q.npow n)

def Q.zpow (q : Q) (k : Int) : Q :=
  if 0 ≤ k then q.npow k.toNat else (q.npow (-k).toNat).inv

/-- `a < b` by cross multiplication (denominators are non-negative). -/
def Q.lt (a b : Q) : Bool := a.num * b.den < b.num * a.den

def Q.le (a b : Q) : Bool := a.num * b.den ≤ b.num * a.den

/-- The sign of a rational number, as the kernel's `number.sign()`. -/
def Q.sign (q : Q) : Int := if q.num < 0 then -1 else if q.num = 0 then 0 else 1

def qZ : Q := ⟨0, 1⟩

def qO : Q := ⟨1, 1⟩

def qNegOne : Q := ⟨-1, 1⟩

mutual
/-- Modelled from the spec: the expression tree of section 3, with
`Rational`, `Symbol`, n-ary `Add`/`Mul`, `Pow`, `Exp`, `Ln` and the
`Infinity` sentinel. -/
inductive Expr : Type where
  | rat : Q → Expr
  | sym : String → Expr
  | add : ExprList → Expr
  | mul : ExprList → Expr
  | pow : Expr → Expr → Expr
  | exp : Expr → Expr
  | ln : Expr → Expr
  | infty : Expr
deriving DecidableEq, Repr
inductive ExprList : Type where
  | nil : ExprList
  | cons : Expr → ExprList → ExprList
deriving DecidableEq, Repr
end

def ExprList.toList : ExprList → List Expr
  | .nil => []
  | .cons e l => e :: l.toList

def listToEL : List Expr → ExprList
  | [] => .nil
  | e :: l => .cons e (listToEL l)

def zeroE : Expr := .rat qZ

def oneE : Expr := .rat qO

def isRatE : Expr → Bool
  | .rat _ => true
  | _ => false

/-- Rebuild a factor list as a raw `mul` node (the kernel keeps `mul`
nodes n-ary; a single factor stands alone). -/
def remul : List Expr → Expr
  | [] => oneE
  | [x] => x
  | xs => .mul (listToEL xs)

/-- Rebuild a summand list as a raw `add` node. -/
def readd : List Expr → Expr
  | [] => zeroE
  | [x] => x
  | xs => .add (listToEL xs)

/-- `domul` from `leadterm`: `s.mul(x)` for several factors, else the
single factor. -/
def domul : List Expr → Expr
  | [x] => x
  | xs => .mul (listToEL xs)

def mulFlat1 (e : Expr) : List Expr :=
  match e with
  | .mul l => l.toList
  | _ => [e]

def addFlat1 (e : Expr) : List Expr :=
  match e with
  | .add l => l.toList
  | _ => [e]

/-- Product of the rational elements of a factor list. -/
def ratProd (l : List Expr) : Q :=
  l.foldl (fun acc e => match e with | .rat q => acc.mul q | _ => acc) qO

/-- Split a factor into base and rational exponent. -/
def powSplit (f : Expr) : Expr × Q :=
  match f with
  | .pow b (.rat k) => (b, k)
  | _ => (f, qO)

/-- Add `v` to the entry of key `key` in an association list, keeping the
first-occurrence order. -/
def assocAdd (acc : List (Expr × Q)) (key : Expr) (v : Q) : List (Expr × Q) :=
  match acc with
  | [] => [(key, v)]
  | (k', v') :: rest =>
      if k' = key then (k', v'.add v) :: rest else (k', v') :: assocAdd rest key v

def collectPows (l : List Expr) : List (Expr × Q) :=
  l.foldl (fun acc f => let bk := powSplit f; assocAdd acc bk.1 bk.2) []

/-- Rebuild a collected base and summed rational exponent as a power
(`x⁰ → 1`, `x¹ → x`, rational powers of rationals evaluated). -/
def mkPowSimple (b : Expr) (k : Q) : Expr :=
  if k = qZ then oneE
  else if k = qO then b
  else match b with
  | .rat p =>
      if p = qZ then zeroE
      else if p = qO then oneE
      else if k.den = 1 then .rat (p.zpow k.num) else .pow (.rat p) (.rat k)
  | b => .pow b (.rat k)

/-- Modelled from the spec: canonicalising `Mul` construction (flatten,
collect the rational coefficient, merge rational powers of equal bases,
drop unit factors, absorb zero). -/
def mkMul (l : List Expr) : Expr :=
  let fl := l.flatMap mulFlat1
  let q1 := ratProd fl
  let gs := collectPows (fl.filter (fun e => !isRatE e))
  let fs := gs.map (fun bk => mkPowSimple bk.1 bk.2)
  let q := q1.mul (ratProd fs)
  let rest := fs.filter (fun e => !isRatE e)
  if q.num = 0 then zeroE
  else if q = qO then
    match rest with
    | [] => oneE
    | [e] => e
    | es => .mul (listToEL es)
  else
    match rest with
    | [] => .rat q
    | es => .mul (listToEL (.rat q :: es))

mutual
/-- Modelled from the spec: canonicalising `Pow` construction
(`x⁰ → 1`, `x¹ → x`, rational powers of rationals evaluated, power of a
power with rational exponents merged, a rational power of a product
distributed over the factors). -/
def mkPow : Expr → Expr → Expr
  | a, .rat k =>
    if k = qZ then oneE
    else if k = qO then a
    else
      match a with
      | .rat p =>
          if p = qZ then zeroE
          else if p = qO then oneE
          else if k.den = 1 then .rat (p.zpow k.num) else .pow (.rat p) (.rat k)
      | .pow b (.rat j) => mkPow b (.rat (j.mul k))
      | .mul l => mkMul (mapPow l k)
      | a => .pow a (.rat k)
  | .rat p, b => if p = qO then oneE else .pow (.rat p) b
  | a, b => .pow a b
def mapPow : ExprList → Q → List Expr
  | .nil, _ => []
  | .cons f fs, k => mkPow f (.rat k) :: mapPow fs k
end

/-- Split a summand into rational coefficient and monomial part. -/
def termSplit (t : Expr) : Q × Expr :=
  match t with
  | .rat q => (q, oneE)
  | .mul (.cons (.rat q) rest) => (q, remul rest.toList)
  | t => (qO, t)

def mulCons (q : Q) (m : Expr) : Expr :=
  match m with
  | .mul l => .mul (.cons (.rat q) l)
  | m => .mul (listToEL [.rat q, m])

def rebuildTerm (m : Expr) (q : Q) : Option Expr :=
  if q.num = 0 then none
  else if m = oneE then some (.rat q)
  else if q = qO then some m
  else some (mulCons q m)

/-- Modelled from the spec: canonicalising `Add` construction (flatten,
combine rational multiples of equal monomials, drop zero summands). -/
def mkAdd (l : List Expr) : Expr :=
  let fl := l.flatMap addFlat1
  let gs := fl.foldl (fun acc t => let qm := termSplit t; assocAdd acc qm.2 qm.1) []
  let ts := gs.filterMap (fun mq => rebuildTerm mq.1 mq.2)
  match ts with
  | [] => zeroE
  | [e] => e
  | es => .add (listToEL es)

/-- `exp` evaluation as in `sympy/core/functions.py`: `exp(0) → 1`,
`exp(ln a) → a`. -/
def mkExp (a : Expr) : Expr :=
  if a = zeroE then oneE
  else match a with
  | .ln b => b
  | a => .exp a

mutual
/-- `log` evaluation as in `sympy/core/functions.py`: `ln 1 → 0`,
`ln (exp a) → a`, `ln` of a product split into a sum, `ln (aᵇ) → b·ln a`. -/
def mkLn : Expr → Expr
  | .rat q => if q = qO then zeroE else .ln (.rat q)
  | .exp b => b
  | .mul l => mkAdd (mapLn l)
  | .pow b c => mkMul [c, mkLn b]
  | a => .ln a
def mapLn : ExprList → List Expr
  | .nil => []
  | .cons e es => mkLn e :: mapLn es
end

mutual
/-- Modelled from the spec: `canonicalize`, applying the smart
constructors bottom-up. -/
def canon : Expr → Expr
  | .add l => mkAdd (canonL l)
  | .mul l => mkMul (canonL l)
  | .pow a b => mkPow (canon a) (canon b)
  | .exp a => mkExp (canon a)
  | .ln a => mkLn (canon a)
  | e => e
def canonL : ExprList → List Expr
  | .nil => []
  | .cons e es => canon e :: canonL es
end

mutual
/-- Modelled from the spec: `substitute(e, old, new)`, structural
replacement followed by canonicalisation. -/
def subs : Expr → Expr → Expr → Expr
  | e, old, new =>
    if e = old then new
    else match e with
    | .add l => mkAdd (subsL l old new)
    | .mul l => mkMul (subsL l old new)
    | .pow a b => mkPow (subs a old new) (subs b old new)
    | .exp a => mkExp (subs a old new)
    | .ln a => mkLn (subs a old new)
    | e => e
def subsL : ExprList → Expr → Expr → List Expr
  | .nil, _, _ => []
  | .cons e es, old, new => subs e old new :: subsL es old new
end

mutual
/-- Modelled from the spec: `differentiate(e, sym)`; the product rule is
applied through the kernel's binary `getab` decomposition, `exp` and `ln`
differentiate as in `sympy/core/functions.py`. -/
def diff : Expr → String → Expr
  | .rat _, _ => zeroE
  | .infty, _ => zeroE
  | .sym s, x => if s = x then oneE else zeroE
  | .add l, x => diffAdd l x
  | .mul l, x => diffMul l x
  | .pow a b, x =>
      mkAdd [mkMul [diff b x, mkLn a, mkPow a b],
             mkMul [b, diff a x, mkPow a (mkAdd [b, .rat qNegOne])]]
  | .exp a, x => mkMul [mkExp a, diff a x]
  | .ln a, x => mkMul [mkPow a (.rat qNegOne), diff a x]
def diffAdd : ExprList → String → Expr
  | .nil, _ => zeroE
  | .cons a .nil, x => diff a x
  | .cons a rest, x => mkAdd [diff a x, diffAdd rest x]
def diffMul : ExprList → String → Expr
  | .nil, _ => zeroE
  | .cons a .nil, x => diff a x
  | .cons a rest, x =>
      mkAdd [mkMul [diff a x, remul rest.toList], mkMul [a, diffMul rest x]]
end

/-- `has(e, x)` from `limits.py`: the derivative with respect to `x` is
not the zero expression. -/
def has (e : Expr) (x : String) : Bool := !(diff e x = zeroE)

mutual
/-- Syntactic occurrence of `a` as a subterm of `e`. -/
def occursIn : Expr → Expr → Bool
  | a, e =>
    if e = a then true
    else match e with
    | .add l => occursInL a l
    | .mul l => occursInL a l
    | .pow b c => occursIn a b || occursIn a c
    | .exp b => occursIn a b
    | .ln b => occursIn a b
    | _ => false
def occursInL : Expr → ExprList → Bool
  | _, .nil => false
  | a, .cons e es => occursIn a e || occursInL a es
end

def isAddE : Expr → Bool
  | .add _ => true
  | _ => false

/-- `member(x, a)` from `limits.py`. -/
def member (x : Expr) (a : List Expr) : Bool := a.any (fun y => x = y)

/-- `intersect(a, b)` from `limits.py`. -/
def intersect (a b : List Expr) : Bool := a.any (fun x => member x b)

/-- `union(a, b)` from `limits.py`: copy `a`, then append the elements of
`b` that are not members of `a`. -/
def union (a b : List Expr) : List Expr := a ++ b.filter (fun x => !member x a)

mutual
/-- `sign(e, x)` from `limits.py`; `none` models the raised exception. -/
def sign : Expr → String → Option Int
  | .rat q, _ => some q.sign
  | .sym y, x => if y = x then some 1 else none
  | .mul l, x => signMul l x
  | .exp _, _ => some 1
  | .pow a _, x => match sign a x with | some 1 => some 1 | _ => none
  | _, _ => none
def signMul : ExprList → String → Option Int
  | .nil, _ => none
  | .cons a .nil, x => sign a x
  | .cons a rest, x => do
      let sa ← sign a x
      let sb ← signMul rest x
      some (sa * sb)
end

/-- Split a factor list at the first factor containing `w`, as the scan
in `leadterm.extract` does. -/
def findHasIdx : List Expr → String → Option (List Expr × Expr × List Expr)
  | [], _ => none
  | f :: fs, w =>
      if has f w then some ([], f, fs)
      else (findHasIdx fs w).map (fun bga => (f :: bga.1, bga.2.1, bga.2.2))

/-- `extract(t, x)` from `leadterm`: coefficient and exponent of a series
summand; `none` models the failed assertion. -/
def extract (t : Expr) (w : String) : Option (Expr × Expr) :=
  if has t w = false then some (t, zeroE)
  else match t with
  | .pow _ b => some (oneE, b)
  | .sym _ => some (oneE, oneE)
  | .mul l =>
      match findHasIdx l.toList w with
      | none => some (t, zeroE)
      | some (before, .pow _ b, after) => some (domul (before ++ after), b)
      | some (before, .sym _, after) => some (domul (before ++ after), oneE)
      | some _ => none
  | _ => none

def addParts : Expr → List Expr
  | .add l => l.toList
  | t => [t]

/-- Decompose a summand as `c·wᵏ` with `c` nonzero and syntactically free
of `w`, and a well-formed rational exponent `k` (the kernel invariant
`q > 0` on rationals). -/
def decompMono (t : Expr) (w : String) : Option (Expr × Q) :=
  if has t w = false then
    (if t = zeroE ∨ isAddE t = true ∨ occursIn (.sym w) t = true then none else some (t, qZ))
  else match t with
  | .sym s => if s = w then some (oneE, qO) else none
  | .pow (.sym s) (.rat k) => if s = w ∧ k.den ≠ 0 then some (oneE, k) else none
  | .mul l =>
      match findHasIdx l.toList w with
      | some (before, .pow (.sym s) (.rat k), after) =>
          if s = w ∧ k.den ≠ 0 ∧ domul (before ++ after) ≠ zeroE ∧
              (before ++ after).all (fun f => !occursIn (.sym w) f) then
            some (domul (before ++ after), k)
          else none
      | some (before, .sym s, after) =>
          if s = w ∧ domul (before ++ after) ≠ zeroE ∧
              (before ++ after).all (fun f => !occursIn (.sym w) f) then
            some (domul (before ++ after), qO)
          else none
      | _ => none
  | _ => none

/-- Modelled from the spec: the external series facility `series(e, sym, n)`.
It succeeds on expressions that are finite Laurent combinations in the
expansion symbol (an additive combination of monomials `c·wᵏ` with `c`
nonzero and free of `w`), and returns the truncation to exponents `≤ n`;
anything else models a `PoleError`. -/
def seriesE (f : Expr) (w : String) (n : Q) : Option Expr :=
  if f = zeroE then some zeroE
  else do
    let parts := addParts f
    let ds ← parts.mapM (fun t => (decompMono t w).map (fun ck => (t, ck.2)))
    let kept := ds.filter (fun tk => tk.2.le n)
    some (readd (kept.map Prod.fst))

/-- Expression comparison `<`, defined by the kernel on numbers only. -/
def ltE (a b : Expr) : Option Bool :=
  match a, b with
  | .rat p, .rat q => some (p.lt q)
  | _, _ => none

/-- The minimum-exponent loop of `leadterm`. -/
def ltFold : List Expr → (Expr × Expr) → String → Option (Expr × Expr)
  | [], lowest, _ => some lowest
  | t :: ts, lowest, w => do
      let t2 ← extract t w
      let b ← ltE t2.2 lowest.2
      ltFold ts (if b then t2 else lowest) w

/-- `leadterm(f, x)` from `limits.py`: the pair `(c0, e0)` of the lowest
term of the series of `f`. -/
def leadterm (f : Expr) (w : String) : Option (Expr × Expr) := do
  let s ← seriesE f w qO
  if s = zeroE then none
  else match s with
  | .add l => ltFold l.toList (zeroE, .rat ⟨10000000000, 1⟩) w
  | t => extract t w

/-- `moveup(l, x)` from `limits.py`. -/
def moveup (l : List Expr) (x : String) : List Expr :=
  l.map (fun e => subs e (.sym x) (.exp (.sym x)))

/-- `movedown(l, x)` from `limits.py`. -/
def movedown (l : List Expr) (x : String) : List Expr :=
  l.map (fun e => subs e (.sym x) (.ln (.sym x)))

def isExpNode : Expr → Bool
  | .exp _ => true
  | _ => false

def argOf : Expr → Expr
  | .exp a => a
  | .ln a => a
  | e => e

/-- The entry assertions of `rewrite`: every element of `Omega` is an
`exp` node and `Omega` is not empty. -/
def rewriteEntry (Omega : List Expr) : Bool :=
  Omega.all isExpNode && !Omega.isEmpty

def getabMul (l : List Expr) : Expr × Expr :=
  match l with
  | [] => (oneE, oneE)
  | [a] => (a, oneE)
  | a :: rest => (a, remul rest)

def getabAdd (l : List Expr) : Expr × Expr :=
  match l with
  | [] => (zeroE, zeroE)
  | [a] => (a, zeroE)
  | a :: rest => (a, readd rest)

mutual
/-- `limitinf(e, x)` from `limits.py`. -/
def limitinf : Nat → Expr → String → Option Expr
  | 0, _, _ => none
  | n+1, e, x =>
    if has e x = false then some e
    else do
      let ce ← mrvleadterm n e x none
      let sig ← sign ce.2 x
      if sig = 1 then some zeroE
      else if sig = -1 then some .infty
      else if sig = 0 then limitinf n ce.1 x
      else none

/-- `mrvleadterm(e, x, Omega)` from `limits.py`. -/
def mrvleadterm : Nat → Expr → String → Option (List Expr) → Option (Expr × Expr)
  | 0, _, _, _ => none
  | n+1, e0, x, Om => do
    let e := canon e0
    if has e x = false then some (e, zeroE)
    else do
      let Omega ← match Om with
        | none => mrv n e x
        | some l => some l
      if member (.sym x) Omega then do
        let r ← mrvleadterm n (subs e (.sym x) (.exp (.sym x))) x (some (moveup Omega x))
        some (subs r.1 (.sym x) (.ln (.sym x)), subs r.2 (.sym x) (.ln (.sym x)))
      else do
        let f ← rewrite n e Omega x (.sym "w")
        leadterm f "w"

/-- `mrv(e, x)` from `limits.py`; `none` models the raised exception on
an unsupported node. -/
def mrv : Nat → Expr → String → Option (List Expr)
  | 0, _, _ => none
  | n+1, e, x =>
    if has e x = false then some []
    else if e = .sym x then some [e]
    else match e with
    | .mul l => do
        let ab := getabMul l.toList
        let fa ← mrv n ab.1 x
        let fb ← mrv n ab.2 x
        max n fa fb x
    | .add l => do
        let ab := getabAdd l.toList
        let fa ← mrv n ab.1 x
        let fb ← mrv n ab.2 x
        max n fa fb x
    | .pow a (.rat _) => mrv n a x
    | .ln u => mrv n u x
    | .exp u => do
        let lim ← limitinf n u x
        if lim = .infty then do
          let fu ← mrv n u x
          max n [e] fu x
        else mrv n u x
    | _ => none

/-- `max(f, g, x)` from `limits.py`. -/
def max : Nat → List Expr → List Expr → String → Option (List Expr)
  | 0, _, _, _ => none
  | n+1, f, g, x =>
    if f = [] then some g
    else if g = [] then some f
    else if intersect f g then some (union f g)
    else if member (.sym x) f then some g
    else if member (.sym x) g then some f
    else do
      let c ← compare n (f.headD zeroE) (g.headD zeroE) x
      if c = ">" then some f
      else if c = "<" then some g
      else some (union f g)

/-- `compare(a, b, x)` from `limits.py`. -/
def compare : Nat → Expr → Expr → String → Option String
  | 0, _, _, _ => none
  | n+1, a, b, x => do
    let c ← limitinf n (.mul (listToEL [.ln a, .pow (.ln b) (.rat qNegOne)])) x
    if c = zeroE then some "<"
    else if c = .infty then some ">"
    else some "="

/-- The keys `len(mrv(t, x))` used by the sort in `rewrite`. -/
def mrvKeys : Nat → List Expr → String → Option (List (Expr × Nat))
  | 0, _, _ => none
  | n+1, Om, x => Om.mapM (fun t => (mrv n t x).map (fun r => (t, r.length)))

/-- `Omega.sort(cmp=cmpfunc)` from `rewrite`: a stable sort, descending
by the size of the mrv set; a list of fewer than two elements is returned
unchanged without computing any key, as the runtime sort performs no
comparison there. -/
def sortOmega : Nat → List Expr → String → Option (List Expr)
  | 0, _, _ => none
  | n+1, Om, x =>
    if Om.length ≤ 1 then some Om
    else do
      let ks ← mrvKeys n Om x
      some ((List.insertionSort (fun p q : Expr × Nat => q.2 ≤ p.2) ks).map Prod.fst)

/-- The loop of `rewrite` building the substitutes `O2`; `none` models
the failed assertion `c[1] == 0`. -/
def rewriteO2 : Nat → List Expr → Expr → Expr → String → Option (List Expr)
  | 0, _, _, _, _ => none
  | n+1, Os, garg, v, x =>
      Os.mapM (fun f => do
        let c ← mrvleadterm n (.mul (listToEL [argOf f, .pow garg (.rat qNegOne)])) x none
        if c.2 = zeroE then
          some (mkMul [mkExp (mkAdd [argOf f, mkMul [.rat qNegOne, c.1, garg]]), mkPow v c.1])
        else none)

/-- The body of `rewrite` after the entry assertions. -/
def rewriteCore : Nat → Expr → List Expr → String → Expr → Option Expr
  | 0, _, _, _, _ => none
  | n+1, e, Om, x, wsym => do
    let Os ← sortOmega n Om x
    let g := Os.getLastD zeroE
    let sg ← sign (argOf g) x
    let v := if sg = 1 then mkPow wsym (.rat qNegOne) else wsym
    let O2 ← rewriteO2 n Os (argOf g) v x
    some ((Os.zip O2).foldl (fun f ab => subs f ab.1 ab.2) e)

/-- `rewrite(e, Omega, x, wsym)` from `limits.py`. -/
def rewrite : Nat → Expr → List Expr → String → Expr → Option Expr
  | 0, _, _, _, _ => none
  | n+1, e, Om, x, wsym =>
      if rewriteEntry Om then rewriteCore n e Om x wsym else none
end

/-- `limit(e, z, z0)` from `limits.py`: substitute `z ↦ z0 + 1/x` for the
symbol named "x" and take `limitinf`. -/
def limit (e : Expr) (z : String) (z0 : Expr) (n : Nat) : Option Expr :=
  limitinf n (subs e (.sym z) (mkAdd [z0, mkPow (.sym "x") (.rat qNegOne)])) "x"

lemma toList_listToEL (l : List Expr) : (listToEL l).toList = l := by
  induction l with
  | nil => rfl
  | cons a l ih => simp [listToEL, ExprList.toList, ih]

lemma listToEL_toList : ∀ l : ExprList, listToEL l.toList = l
  | .nil => rfl
  | .cons a l => by simp [listToEL, ExprList.toList, listToEL_toList l]

/-- Claim C1, counterexample: `limit(e, x, ∞)` is not computed as
`limitinf(e, x)`.  At `e = exp(−z)` the code substitutes `z ↦ ∞ + 1/x`,
runs into a series expansion of an expression containing `∞` and fails,
while `limitinf(exp(−x), x) = 0`; and the expression substituted for the
limit variable at `z₀ = ∞` is not the bare fresh symbol. -/
theorem limit_infty_not_limitinf :
    limit (.exp (.mul (listToEL [.rat qNegOne, .sym "z"]))) "z" .infty 50 = none ∧
    limitinf 50 (.exp (.mul (listToEL [.rat qNegOne, .sym "x"]))) "x" = some zeroE ∧
    subs (.sym "z") (.sym "z") (mkAdd [.infty, mkPow (.sym "x") (.rat qNegOne)]) ≠ .sym "x" := by
  refine ⟨by decide, by decide, by decide⟩

/-- Claim C1, amended: `limit(e, z, z0)` substitutes `z ↦ z0 + 1/x`
uniformly, with no special case at `z0 = ∞`; the expression handed to
`limitinf` at `z₀ = ∞` is `e[z := ∞ + 1/x]` (for `e = z` the sum node
`∞ + 1/x`, not the symbol `x`), and on `e = z` the code returns `∞`. -/
theorem limit_substitutes_inv_always :
    (∀ (e : Expr) (z : String) (z0 : Expr) (n : Nat),
      limit e z z0 n =
        limitinf n (subs e (.sym z) (mkAdd [z0, mkPow (.sym "x") (.rat qNegOne)])) "x") ∧
    subs (.sym "z") (.sym "z") (mkAdd [.infty, mkPow (.sym "x") (.rat qNegOne)]) =
      .add (listToEL [.infty, .pow (.sym "x") (.rat qNegOne)]) ∧
    limit (.sym "z") "z" .infty 50 = some .infty := by
  exact ⟨fun _ _ _ _ => rfl, by decide, by decide⟩

/-- Claim C2: `limitinf` evaluates `(c₀, e₀) = mrvleadterm(e, x)` and, on
`sign(e₀, x) = −1`, returns the bare (positive) infinity sentinel without
attaching `sign(c₀, x)`.  At `e = −x` the lead term is `(−1, −1)`,
`sign(c₀) = −1` is decidable, yet the result is the unsigned `∞` — the
reported limit of `−x` at `+∞` is `∞` instead of `−∞`. -/
theorem limitinf_neg_x_unsigned :
    limitinf 50 (.mul (listToEL [.rat qNegOne, .sym "x"])) "x" = some .infty ∧
    mrvleadterm 49 (.mul (listToEL [.rat qNegOne, .sym "x"])) "x" none =
      some (.rat qNegOne, .rat qNegOne) ∧
    sign (.rat qNegOne) "x" = some (-1) := by
  refine ⟨by decide, by decide, by decide⟩

/-- Claim C7: on the valid input `Ω = [exp x]` (a nonempty list of `exp`
nodes, trivially in one comparability class) with
`e = exp(x + exp(x) − 1/w)`, the result of `rewrite(e, Ω, x, w)` is
`exp(x)` — an element of `Ω` survives as a subterm, because the
substitution symbol the engine always uses (the fixed name "w") already
occurs in `e` and cancels against the introduced power. -/
theorem rewrite_keeps_omega_element :
    rewrite 50
      (.exp (.add (listToEL [.sym "x", .exp (.sym "x"),
        .mul (listToEL [.rat qNegOne, .pow (.sym "w") (.rat qNegOne)])])))
      [.exp (.sym "x")] "x" (.sym "w") = some (.exp (.sym "x")) ∧
    rewriteEntry [.exp (.sym "x")] = true ∧
    occursIn (.exp (.sym "x")) (.exp (.sym "x")) = true := by
  refine ⟨by decide, by decide, by decide⟩

/-- Claim C8: no fresh-symbol counter exists.  `mrvleadterm` always uses
the fixed named symbol "w" as rewrite variable, so a user symbol of the
same name is captured: `limitinf(w·exp x, x)` evaluates to `1`, while the
same expression with the symbol renamed to "v" evaluates to `∞`. -/
theorem fixed_dummy_symbol_capture :
    limitinf 50 (.mul (listToEL [.sym "w", .exp (.sym "x")])) "x" = some oneE ∧
    limitinf 50 (.mul (listToEL [.sym "v", .exp (.sym "x")])) "x" = some .infty := by
  refine ⟨by decide, by decide⟩

/-- Claim C10: `rewrite` fails, before any rewriting, exactly on the
entry assertions: when `Ω` is empty or contains a node that is not an
`exp` node; when `Ω` is a nonempty list of `exp` nodes the entry check
passes and the body is entered. -/
theorem rewrite_entry_guard (n : Nat) (e : Expr) (Om : List Expr) (x : String) (w : Expr) :
    (rewriteEntry Om = false → rewrite (n+1) e Om x w = none) ∧
    (rewriteEntry Om = true → rewrite (n+1) e Om x w = rewriteCore n e Om x w) ∧
    (rewriteEntry Om = true ↔ (Om ≠ [] ∧ ∀ t ∈ Om, isExpNode t = true)) := by
  refine ⟨fun h => by simp [rewrite, h], fun h => by simp [rewrite, h], ?_⟩
  simp [rewriteEntry, List.all_eq_true, List.isEmpty_iff, and_comm]

theorem rewrite_entry_guard_witness :
    rewrite 6 zeroE [] "x" (.sym "w") = none :=
  (rewrite_entry_guard 5 zeroE [] "x" (.sym "w")).1 (by decide)

lemma signMul_remul (b : Expr) (rest : List Expr) (x : String) :
    signMul (listToEL (b :: rest)) x = sign (remul (b :: rest)) x := by
  cases rest <;> rfl

/-- Claim C6: the rules of `sign(e, x)` in order — a rational constant
yields its arithmetic sign; the variable `x` itself yields `+1`; a
product yields the product of the signs of its `getab` parts; `exp(u)`
yields `+1`; `aᵇ` with `sign(a) = +1` yields `+1`; and in every other
case (`ln`, sums, `∞`, a foreign symbol, a power whose base is not of
known positive sign) the oracle fails instead of returning a value. -/
theorem sign_rule_order :
    (∀ (q : Q) (x : String), sign (.rat q) x =
        some (if q.num < 0 then -1 else if q.num = 0 then 0 else 1)) ∧
    (∀ x : String, sign (.sym x) x = some 1) ∧
    (∀ (a : Expr) (bs : List Expr) (x : String), bs ≠ [] →
      sign (.mul (listToEL (a :: bs))) x =
        (sign a x).bind (fun sa => (sign (remul bs) x).map (fun sb => sa * sb))) ∧
    (∀ (u : Expr) (x : String), sign (.exp u) x = some 1) ∧
    (∀ (a b : Expr) (x : String), sign a x = some 1 → sign (.pow a b) x = some 1) ∧
    (∀ (a b : Expr) (x : String) (s : Int),
      sign a x = some s → s ≠ 1 → sign (.pow a b) x = none) ∧
    (∀ (a b : Expr) (x : String), sign a x = none → sign (.pow a b) x = none) ∧
    (∀ (u : Expr) (x : String), sign (.ln u) x = none) ∧
    (∀ (l : ExprList) (x : String), sign (.add l) x = none) ∧
    (∀ x : String, sign .infty x = none) ∧
    (∀ (y x : String), y ≠ x → sign (.sym y) x = none) := by
  refine ⟨fun q x => rfl, fun x => by simp [sign], ?_, fun u x => rfl, ?_, ?_, ?_,
    fun u x => rfl, fun l x => rfl, fun x => rfl, fun y x h => by simp [sign, h]⟩
  · intro a bs x hbs
    match bs with
    | b :: rest =>
      show signMul (.cons a (listToEL (b :: rest))) x = _
      rw [show ExprList.cons a (listToEL (b :: rest)) =
            ExprList.cons a (.cons b (listToEL rest)) from rfl]
      show ((sign a x).bind fun sa => (signMul (.cons b (listToEL rest)) x).bind
              fun sb => some (sa * sb)) = _
      rw [show ExprList.cons b (listToEL rest) = listToEL (b :: rest) from rfl,
          signMul_remul]
      cases sign a x <;> cases sign (remul (b :: rest)) x <;> rfl
  · intro a b x h
    simp [sign, h]
  · intro a b x s h hne
    simp only [sign, h]
    split
    · rename_i heq
      exact absurd (Option.some.inj heq) hne
    · rfl
  · intro a b x h
    simp [sign, h]

theorem sign_rule_order_witness :
    sign (.pow (.sym "x") (.rat ⟨7, 2⟩)) "x" = some 1 :=
  sign_rule_order.2.2.2.2.1 (.sym "x") (.rat ⟨7, 2⟩) "x" (by decide)

lemma member_iff (x : Expr) (a : List Expr) : member x a = true ↔ x ∈ a := by
  simp only [member, List.any_eq_true, decide_eq_true_eq]
  constructor
  · rintro ⟨y, hy, rfl⟩; exact hy
  · intro hx; exact ⟨x, hx, rfl⟩

lemma union_nodup {a b : List Expr} (ha : a.Nodup) (hb : b.Nodup) :
    (union a b).Nodup := by
  unfold union
  refine List.Nodup.append ha (hb.filter _) ?_
  intro x hxa hxf
  have hm := List.of_mem_filter hxf
  simp only [Bool.not_eq_true'] at hm
  rw [← member_iff x a] at hxa
  simp [hxa] at hm

set_option maxRecDepth 4000 in
lemma max_nodup : ∀ (n : Nat) (f g : List Expr) (x : String) (l : List Expr),
    max n f g x = some l → f.Nodup → g.Nodup → l.Nodup := by
  intro n f g x l h hf hg
  match n with
  | 0 => exact Option.noConfusion h
  | n+1 =>
    unfold max at h
    split at h
    · exact Option.some.inj h ▸ hg
    · split at h
      · exact Option.some.inj h ▸ hf
      · split at h
        · exact Option.some.inj h ▸ union_nodup hf hg
        · split at h
          · exact Option.some.inj h ▸ hg
          · split at h
            · exact Option.some.inj h ▸ hf
            · rcases Option.bind_eq_some.mp h with ⟨c, _, h2⟩
              split at h2
              · exact Option.some.inj h2 ▸ hf
              · split at h2
                · exact Option.some.inj h2 ▸ hg
                · exact Option.some.inj h2 ▸ union_nodup hf hg

lemma mrv_succ (n : Nat) (e : Expr) (x : String) : mrv (n+1) e x =
    (if has e x = false then some []
    else if e = .sym x then some [e]
    else match e with
    | .mul l => do
        let ab := getabMul l.toList
        let fa ← mrv n ab.1 x
        let fb ← mrv n ab.2 x
        max n fa fb x
    | .add l => do
        let ab := getabAdd l.toList
        let fa ← mrv n ab.1 x
        let fb ← mrv n ab.2 x
        max n fa fb x
    | .pow a (.rat _) => mrv n a x
    | .ln u => mrv n u x
    | .exp u => do
        let lim ← limitinf n u x
        if lim = .infty then do
          let fu ← mrv n u x
          max n [e] fu x
        else mrv n u x
    | _ => none) := rfl

/-- Claim C9: the list returned by `mrv(e, x)` has no duplicate
elements: the base cases return empty or singleton lists and `union`
(hence `max`) only appends elements that are not already members. -/
theorem mrv_nodup : ∀ (n : Nat) (e : Expr) (x : String) (l : List Expr),
    mrv n e x = some l → l.Nodup := by
  intro n
  induction n with
  | zero => intro e x l h; exact Option.noConfusion h
  | succ n ih =>
    intro e x l h
    rw [mrv_succ] at h
    split at h
    · exact Option.some.inj h ▸ List.nodup_nil
    · split at h
      · exact Option.some.inj h ▸ List.nodup_singleton _
      · split at h
        · rcases Option.bind_eq_some.mp h with ⟨fa, hfa, h2⟩
          rcases Option.bind_eq_some.mp h2 with ⟨fb, hfb, h3⟩
          exact max_nodup n fa fb x l h3 (ih _ _ _ hfa) (ih _ _ _ hfb)
        · rcases Option.bind_eq_some.mp h with ⟨fa, hfa, h2⟩
          rcases Option.bind_eq_some.mp h2 with ⟨fb, hfb, h3⟩
          exact max_nodup n fa fb x l h3 (ih _ _ _ hfa) (ih _ _ _ hfb)
        · exact ih _ _ _ h
        · exact ih _ _ _ h
        · rcases Option.bind_eq_some.mp h with ⟨lim, _, h2⟩
          split at h2
          · rcases Option.bind_eq_some.mp h2 with ⟨fu, hfu, h3⟩
            exact max_nodup n _ fu x l h3 (List.nodup_singleton _) (ih _ _ _ hfu)
          · exact ih _ _ _ h2
        · exact Option.noConfusion h

theorem mrv_nodup_witness : List.Nodup [Expr.exp (.sym "x")] :=
  mrv_nodup 20 (.exp (.sym "x")) "x" [.exp (.sym "x")] (by decide)

lemma Q.norm_zero_num (d : Int) : (Q.norm 0 d).num = 0 := by
  unfold Q.norm
  split
  · rfl
  · simp [Int.zero_tdiv]

lemma Q.mul_num_zero {a b : Q} (h : a.num = 0 ∨ b.num = 0) : (a.mul b).num = 0 := by
  unfold Q.mul
  rcases h with h | h <;> rw [h] <;> simp [Q.norm_zero_num]

lemma ratProd_zero_acc : ∀ (l : List Expr) (acc : Q), acc.num = 0 →
    (List.foldl (fun acc e => match e with | .rat q => acc.mul q | _ => acc) acc l).num = 0 := by
  intro l
  induction l with
  | nil => intro acc h; simpa using h
  | cons e t iht =>
    intro acc h
    simp only [List.foldl_cons]
    cases e
    case rat q => exact iht _ (Q.mul_num_zero (Or.inl h))
    all_goals exact iht _ h

lemma ratProd_mem_zero : ∀ (l : List Expr) (acc : Q), Expr.rat qZ ∈ l →
    (List.foldl (fun acc e => match e with | .rat q => acc.mul q | _ => acc) acc l).num = 0 := by
  intro l
  induction l with
  | nil => intro acc h; cases h
  | cons e t iht =>
    intro acc h
    simp only [List.foldl_cons]
    rcases List.mem_cons.mp h with rfl | hm
    · exact ratProd_zero_acc t _ (Q.mul_num_zero (Or.inr rfl))
    · cases e
      case rat q => exact iht _ hm
      all_goals exact iht _ hm

lemma ratProd_mem {l : List Expr} (h : Expr.rat qZ ∈ l) : (ratProd l).num = 0 :=
  ratProd_mem_zero l qO h

lemma mkMul_zero {l : List Expr} (h : Expr.rat qZ ∈ l) : mkMul l = zeroE := by
  have h1 : Expr.rat qZ ∈ l.flatMap mulFlat1 :=
    List.mem_flatMap.mpr ⟨_, h, by simp [mulFlat1]⟩
  have h2 : ((ratProd (l.flatMap mulFlat1)).mul
      (ratProd ((collectPows ((l.flatMap mulFlat1).filter (fun e => !isRatE e))).map
        (fun bk => mkPowSimple bk.1 bk.2)))).num = 0 :=
    Q.mul_num_zero (Or.inl (ratProd_mem h1))
  simp only [mkMul]
  rw [if_pos h2]

lemma has_false_iff (e : Expr) (x : String) : has e x = false ↔ diff e x = zeroE := by
  simp [has]

lemma diff_remul (b : Expr) (rl : List Expr) (x : String) :
    diff (remul (b :: rl)) x = diffMul (.cons b (listToEL rl)) x := by
  cases rl <;> rfl

lemma diff_readd (b : Expr) (rl : List Expr) (x : String) :
    diff (readd (b :: rl)) x = diffAdd (.cons b (listToEL rl)) x := by
  cases rl <;> rfl

lemma diffMul_zero (l : ExprList) (x : String)
    (h1 : diff (getabMul l.toList).1 x = zeroE)
    (h2 : diff (getabMul l.toList).2 x = zeroE) : diffMul l x = zeroE := by
  match l with
  | .nil => rfl
  | .cons a .nil =>
      exact h1
  | .cons a (.cons b r) =>
      show mkAdd [mkMul [diff a x, remul (ExprList.cons b r).toList],
                  mkMul [a, diffMul (.cons b r) x]] = zeroE
      have ha : diff a x = zeroE := h1
      have hb : diffMul (.cons b r) x = zeroE := by
        have := h2
        show diffMul (.cons b r) x = zeroE
        rw [show (getabMul (ExprList.cons a (.cons b r)).toList).2 =
              remul (b :: r.toList) from rfl] at this
        rw [diff_remul] at this
        rwa [listToEL_toList] at this
      rw [ha, hb, mkMul_zero (by simp [zeroE]), mkMul_zero (by simp [zeroE])]
      decide

lemma diffAdd_zero (l : ExprList) (x : String)
    (h1 : diff (getabAdd l.toList).1 x = zeroE)
    (h2 : diff (getabAdd l.toList).2 x = zeroE) : diffAdd l x = zeroE := by
  match l with
  | .nil => rfl
  | .cons a .nil => exact h1
  | .cons a (.cons b r) =>
      show mkAdd [diff a x, diffAdd (.cons b r) x] = zeroE
      have ha : diff a x = zeroE := h1
      have hb : diffAdd (.cons b r) x = zeroE := by
        have := h2
        rw [show (getabAdd (ExprList.cons a (.cons b r)).toList).2 =
              readd (b :: r.toList) from rfl] at this
        rw [diff_readd] at this
        rwa [listToEL_toList] at this
      rw [ha, hb]
      decide

lemma diff_pow_rat_zero (a : Expr) (k : Q) (x : String) (h : diff a x = zeroE) :
    diff (.pow a (.rat k)) x = zeroE := by
  show mkAdd [mkMul [diff (.rat k) x, mkLn a, mkPow a (.rat k)],
              mkMul [.rat k, diff a x, mkPow a (mkAdd [.rat k, .rat qNegOne])]] = zeroE
  rw [h, show diff (.rat k) x = zeroE from rfl,
      mkMul_zero (by simp [zeroE]), mkMul_zero (by simp [zeroE])]
  decide

lemma diff_exp_zero (a : Expr) (x : String) (h : diff a x = zeroE) :
    diff (.exp a) x = zeroE := by
  show mkMul [mkExp a, diff a x] = zeroE
  rw [h]
  exact mkMul_zero (by simp [zeroE])

lemma diff_ln_zero (a : Expr) (x : String) (h : diff a x = zeroE) :
    diff (.ln a) x = zeroE := by
  show mkMul [mkPow a (.rat qNegOne), diff a x] = zeroE
  rw [h]
  exact mkMul_zero (by simp [zeroE])

lemma max_empty : ∀ (n : Nat) (f g : List Expr) (x : String) (l : List Expr),
    max n f g x = some l → (l = [] ↔ (f = [] ∧ g = [])) := by
  intro n f g x l h
  match n with
  | 0 => exact Option.noConfusion h
  | n+1 =>
    unfold max at h
    split at h
    · rename_i hf
      rw [← Option.some.inj h]; simp [hf]
    · rename_i hf
      split at h
      · rename_i hg
        rw [← Option.some.inj h]; simp [hg, hf]
      · rename_i hg
        split at h
        · have : union f g ≠ [] := by
            unfold union
            intro hu
            exact hf (List.append_eq_nil.mp hu).1
          rw [← Option.some.inj h]; simp [this, hf]
        · split at h
          · rw [← Option.some.inj h]; simp [hg, hf]
          · split at h
            · rw [← Option.some.inj h]; simp [hg, hf]
            · rcases Option.bind_eq_some.mp h with ⟨c, _, h2⟩
              have hu : union f g ≠ [] := by
                unfold union
                intro hu
                exact hf (List.append_eq_nil.mp hu).1
              split at h2
              · rw [← Option.some.inj h2]; simp [hf, hg]
              · split at h2
                · rw [← Option.some.inj h2]; simp [hf, hg]
                · rw [← Option.some.inj h2]; simp [hu, hf]

/-- Claim C5: `mrv(e, x)` returns the empty list exactly when `e` does
not depend on `x`, dependence being decided as `has(e, x)`, i.e. the
derivative of `e` with respect to `x` being nonzero. -/
theorem mrv_empty_iff : ∀ (n : Nat) (e : Expr) (x : String) (l : List Expr),
    mrv n e x = some l → (l = [] ↔ has e x = false) := by
  intro n
  induction n with
  | zero => intro e x l h; exact Option.noConfusion h
  | succ n ih =>
    intro e x l h
    rw [mrv_succ] at h
    split at h
    · rename_i hhas
      rw [← Option.some.inj h]
      simp [hhas]
    · rename_i hhas
      have ht : has e x = true := by
        revert hhas; cases has e x <;> simp
      split at h
      · rename_i hx
        rw [← Option.some.inj h]
        simp [ht]
      · split at h
        · rename_i l' hneq
          rcases Option.bind_eq_some.mp h with ⟨fa, hfa, h2⟩
          rcases Option.bind_eq_some.mp h2 with ⟨fb, hfb, h3⟩
          have hiff := max_empty n fa fb x l h3
          constructor
          · intro h0
            rcases hiff.mp h0 with ⟨ha0, hb0⟩
            have hda := (has_false_iff _ _).mp ((ih _ _ _ hfa).mp ha0)
            have hdb := (has_false_iff _ _).mp ((ih _ _ _ hfb).mp hb0)
            exact absurd ((has_false_iff (Expr.mul l') x).mpr
              (show diff (Expr.mul l') x = zeroE from diffMul_zero l' x hda hdb))
              (by simp [ht])
          · intro hf0
            rw [hf0] at ht; cases ht
        · rename_i l' hneq
          rcases Option.bind_eq_some.mp h with ⟨fa, hfa, h2⟩
          rcases Option.bind_eq_some.mp h2 with ⟨fb, hfb, h3⟩
          have hiff := max_empty n fa fb x l h3
          constructor
          · intro h0
            rcases hiff.mp h0 with ⟨ha0, hb0⟩
            have hda := (has_false_iff _ _).mp ((ih _ _ _ hfa).mp ha0)
            have hdb := (has_false_iff _ _).mp ((ih _ _ _ hfb).mp hb0)
            exact absurd ((has_false_iff (Expr.add l') x).mpr
              (show diff (Expr.add l') x = zeroE from diffAdd_zero l' x hda hdb))
              (by simp [ht])
          · intro hf0
            rw [hf0] at ht; cases ht
        · rename_i a k hneq
          constructor
          · intro h0
            have hda := (has_false_iff _ _).mp ((ih _ _ _ h).mp h0)
            exact absurd ((has_false_iff (Expr.pow a (.rat k)) x).mpr
              (diff_pow_rat_zero a k x hda)) (by simp [ht])
          · intro hf0
            rw [hf0] at ht; cases ht
        · rename_i u hneq
          constructor
          · intro h0
            have hdu := (has_false_iff _ _).mp ((ih _ _ _ h).mp h0)
            exact absurd ((has_false_iff (Expr.ln u) x).mpr (diff_ln_zero u x hdu))
              (by simp [ht])
          · intro hf0
            rw [hf0] at ht; cases ht
        · rename_i u hneq
          rcases Option.bind_eq_some.mp h with ⟨lim, hlim, h2⟩
          split at h2
          · rcases Option.bind_eq_some.mp h2 with ⟨fu, hfu, h3⟩
            have hiff := max_empty n _ fu x l h3
            constructor
            · intro h0
              rcases hiff.mp h0 with ⟨hsing, _⟩
              cases hsing
            · intro hf0
              rw [hf0] at ht; cases ht
          · constructor
            · intro h0
              have hdu := (has_false_iff _ _).mp ((ih _ _ _ h2).mp h0)
              exact absurd ((has_false_iff (Expr.exp u) x).mpr (diff_exp_zero u x hdu))
                (by simp [ht])
            · intro hf0
              rw [hf0] at ht; cases ht
        · exact Option.noConfusion h

theorem mrv_empty_iff_witness :
    (([Expr.exp (.sym "x")] : List Expr) = [] ↔ has (Expr.exp (.sym "x")) "x" = false) ∧
    (([] : List Expr) = [] ↔ has (Expr.sym "y") "x" = false) :=
  ⟨mrv_empty_iff 20 (.exp (.sym "x")) "x" [.exp (.sym "x")] (by decide),
   mrv_empty_iff 3 (.sym "y") "x" [] (by decide)⟩

lemma occursIn_unfold (a e : Expr) : occursIn a e =
    (if e = a then true
     else match e with
     | .add l => occursInL a l
     | .mul l => occursInL a l
     | .pow b c => occursIn a b || occursIn a c
     | .exp b => occursIn a b
     | .ln b => occursIn a b
     | _ => false) := by
  cases e <;> rfl

mutual
theorem nodep : ∀ (e : Expr) (x : String),
    occursIn (.sym x) e = false → diff e x = zeroE
  | .rat q, x, _ => rfl
  | .infty, x, _ => rfl
  | .sym s, x, h => by
      show (if s = x then oneE else zeroE) = zeroE
      rw [if_neg]
      intro hsx
      subst hsx
      rw [occursIn_unfold, if_pos rfl] at h
      cases h
  | .add l, x, h => by
      show diffAdd l x = zeroE
      rw [occursIn_unfold] at h
      rw [if_neg (by intro hc; cases hc)] at h
      exact nodepAdd l x h
  | .mul l, x, h => by
      show diffMul l x = zeroE
      rw [occursIn_unfold] at h
      rw [if_neg (by intro hc; cases hc)] at h
      exact nodepMul l x h
  | .pow a b, x, h => by
      rw [occursIn_unfold] at h
      rw [if_neg (by intro hc; cases hc)] at h
      have hab := Bool.or_eq_false_iff.mp h
      show mkAdd [mkMul [diff b x, mkLn a, mkPow a b],
                  mkMul [b, diff a x, mkPow a (mkAdd [b, .rat qNegOne])]] = zeroE
      rw [nodep a x hab.1, nodep b x hab.2,
          mkMul_zero (by simp [zeroE]), mkMul_zero (by simp [zeroE])]
      decide
  | .exp a, x, h => by
      rw [occursIn_unfold] at h
      rw [if_neg (by intro hc; cases hc)] at h
      show mkMul [mkExp a, diff a x] = zeroE
      rw [nodep a x h]
      exact mkMul_zero (by simp [zeroE])
  | .ln a, x, h => by
      rw [occursIn_unfold] at h
      rw [if_neg (by intro hc; cases hc)] at h
      show mkMul [mkPow a (.rat qNegOne), diff a x] = zeroE
      rw [nodep a x h]
      exact mkMul_zero (by simp [zeroE])
theorem nodepAdd : ∀ (l : ExprList) (x : String),
    occursInL (.sym x) l = false → diffAdd l x = zeroE
  | .nil, x, _ => rfl
  | .cons a .nil, x, h => by
      have := Bool.or_eq_false_iff.mp h
      exact nodep a x this.1
  | .cons a (.cons b r), x, h => by
      have hab := Bool.or_eq_false_iff.mp h
      show mkAdd [diff a x, diffAdd (.cons b r) x] = zeroE
      rw [nodep a x hab.1, nodepAdd (.cons b r) x hab.2]
      decide
theorem nodepMul : ∀ (l : ExprList) (x : String),
    occursInL (.sym x) l = false → diffMul l x = zeroE
  | .nil, x, _ => rfl
  | .cons a .nil, x, h => by
      have := Bool.or_eq_false_iff.mp h
      exact nodep a x this.1
  | .cons a (.cons b r), x, h => by
      have hab := Bool.or_eq_false_iff.mp h
      show mkAdd [mkMul [diff a x, remul (ExprList.cons b r).toList],
                  mkMul [a, diffMul (.cons b r) x]] = zeroE
      rw [nodep a x hab.1, nodepMul (.cons b r) x hab.2,
          mkMul_zero (by simp [zeroE]), mkMul_zero (by simp [zeroE])]
      decide
end

lemma nodep_has {e : Expr} {x : String} (h : occursIn (.sym x) e = false) :
    has e x = false :=
  (has_false_iff e x).mpr (nodep e x h)

lemma Q.le_refl' (a : Q) : a.le a = true := by simp [Q.le]

lemma Q.not_lt_iff {a b : Q} : a.lt b = false ↔ b.le a = true := by
  simp only [Q.lt, Q.le, decide_eq_false_iff_not, Int.not_lt, decide_eq_true_eq]

lemma Q.lt_imp_le {a b : Q} (h : a.lt b = true) : a.le b = true := by
  simp only [Q.lt, decide_eq_true_eq] at h
  simp only [Q.le, decide_eq_true_eq]
  omega

lemma Q.le_trans' {a b c : Q} (hb : b.den ≠ 0) (h1 : a.le b = true)
    (h2 : b.le c = true) : a.le c = true := by
  simp only [Q.le, decide_eq_true_eq] at *
  have hb' : (0 : Int) < (b.den : Int) := by exact_mod_cast Nat.pos_of_ne_zero hb
  have hc' : (0 : Int) ≤ (c.den : Int) := Int.ofNat_nonneg _
  have ha' : (0 : Int) ≤ (a.den : Int) := Int.ofNat_nonneg _
  nlinarith [mul_le_mul_of_nonneg_right h1 hc', mul_le_mul_of_nonneg_right h2 ha']

lemma mapM_forall2 {α β : Type} (f : α → Option β) :
    ∀ (l : List α) (l2 : List β), l.mapM f = some l2 →
      List.Forall₂ (fun a b => f a = some b) l l2 := by
  intro l
  induction l with
  | nil =>
    intro l2 h
    rw [List.mapM_nil] at h
    rw [← Option.some.inj h]
    constructor
  | cons a t ih =>
    intro l2 h
    rw [List.mapM_cons] at h
    rcases Option.bind_eq_some.mp h with ⟨b, hb, h2⟩
    rcases Option.bind_eq_some.mp h2 with ⟨bs, hbs, h3⟩
    rw [← Option.some.inj h3]
    exact List.Forall₂.cons hb (ih bs hbs)

lemma forall2_mem_right {α β : Type} {R : α → β → Prop} :
    ∀ {l : List α} {l2 : List β}, List.Forall₂ R l l2 →
      ∀ b ∈ l2, ∃ a ∈ l, R a b := by
  intro l l2 h
  induction h with
  | nil => intro b hb; cases hb
  | cons hR _ ih =>
    intro b hb
    rcases List.mem_cons.mp hb with rfl | hb2
    · exact ⟨_, List.mem_cons_self _ _, hR⟩
    · rcases ih b hb2 with ⟨a, ha, hab⟩
      exact ⟨a, List.mem_cons_of_mem _ ha, hab⟩

lemma occursInL_eq_any (a : Expr) :
    ∀ lst : List Expr, occursInL a (listToEL lst) = lst.any (fun f => occursIn a f) := by
  intro lst
  induction lst with
  | nil => rfl
  | cons c cs ih =>
    show (occursIn a c || occursInL a (listToEL cs)) = _
    rw [ih]
    simp [List.any_cons]

lemma occursIn_domul {w : String} {lst : List Expr}
    (h : lst.all (fun f => !occursIn (.sym w) f) = true) :
    occursIn (.sym w) (domul lst) = false := by
  match lst with
  | [] =>
    show occursIn (.sym w) (.mul .nil) = false
    rw [occursIn_unfold, if_neg (by intro hc; cases hc)]
    rfl
  | [x] =>
    have := List.all_eq_true.mp h x (by simp)
    simpa using this
  | x :: y :: rest =>
    show occursIn (.sym w) (.mul (listToEL (x :: y :: rest))) = false
    rw [occursIn_unfold, if_neg (by intro hc; cases hc)]
    have h2 : occursInL (.sym w) (listToEL (x :: y :: rest)) = false := by
      rw [occursInL_eq_any]
      simp only [List.any_eq_false]
      intro f hf
      simpa using List.all_eq_true.mp h f hf
    exact h2

lemma extract_unfold (t : Expr) (w : String) : extract t w =
    (if has t w = false then some (t, zeroE)
     else match t with
     | .pow _ b => some (oneE, b)
     | .sym _ => some (oneE, oneE)
     | .mul l =>
         match findHasIdx l.toList w with
         | none => some (t, zeroE)
         | some (before, .pow _ b, after) => some (domul (before ++ after), b)
         | some (before, .sym _, after) => some (domul (before ++ after), oneE)
         | some _ => none
     | _ => none) := rfl

lemma decompMono_spec {t : Expr} {w : String} {c : Expr} {k : Q}
    (h : decompMono t w = some (c, k)) :
    extract t w = some (c, .rat k) ∧ c ≠ zeroE ∧ has c w = false ∧ k.den ≠ 0 ∧
      isAddE t = false := by
  unfold decompMono at h
  split at h
  · rename_i hhas
    split at h
    · exact Option.noConfusion h
    · rename_i hcond
      push_neg at hcond
      obtain ⟨rfl, rfl⟩ : t = c ∧ qZ = k := by
        have := Option.some.inj h
        exact ⟨(congrArg Prod.fst this), (congrArg Prod.snd this)⟩
      refine ⟨by rw [extract_unfold, if_pos hhas]; rfl, hcond.1, hhas, by decide, ?_⟩
      have := hcond.2.1
      revert this
      cases isAddE t <;> simp
  · rename_i hhas
    have hhas' : has t w = true := by revert hhas; cases has t w <;> simp
    split at h
    · rename_i s
      split at h
      · rename_i hsw
        subst hsw
        obtain ⟨rfl, rfl⟩ : oneE = c ∧ qO = k := by
          have := Option.some.inj h
          exact ⟨congrArg Prod.fst this, congrArg Prod.snd this⟩
        refine ⟨?_, by decide, by rfl, by decide, rfl⟩
        rw [extract_unfold, if_neg (by simp [hhas'])]
        rfl
      · exact Option.noConfusion h
    · rename_i s k'
      split at h
      · rename_i hck
        obtain ⟨rfl, rfl⟩ : oneE = c ∧ k' = k := by
          have := Option.some.inj h
          exact ⟨congrArg Prod.fst this, congrArg Prod.snd this⟩
        refine ⟨?_, by decide, by rfl, hck.2, rfl⟩
        rw [extract_unfold, if_neg (by simp [hhas'])]
      · exact Option.noConfusion h
    · rename_i l
      split at h
      · rename_i before s k' after hfind
        split at h
        · rename_i hck
          obtain ⟨rfl, rfl⟩ : domul (before ++ after) = c ∧ k' = k := by
            have := Option.some.inj h
            exact ⟨congrArg Prod.fst this, congrArg Prod.snd this⟩
          refine ⟨?_, hck.2.2.1, nodep_has (occursIn_domul hck.2.2.2), hck.2.1, rfl⟩
          rw [extract_unfold, if_neg (by simp [hhas'])]
          show (match findHasIdx l.toList w with
            | none => some (Expr.mul l, zeroE)
            | some (before, .pow _ b, after) => some (domul (before ++ after), b)
            | some (before, .sym _, after) => some (domul (before ++ after), oneE)
            | some _ => none) = _
          rw [hfind]
        · exact Option.noConfusion h
      · rename_i before s after hfind
        split at h
        · rename_i hck
          obtain ⟨rfl, rfl⟩ : domul (before ++ after) = c ∧ qO = k := by
            have := Option.some.inj h
            exact ⟨congrArg Prod.fst this, congrArg Prod.snd this⟩
          refine ⟨?_, hck.2.1, nodep_has (occursIn_domul hck.2.2), by decide, rfl⟩
          rw [extract_unfold, if_neg (by simp [hhas'])]
          show (match findHasIdx l.toList w with
            | none => some (Expr.mul l, zeroE)
            | some (before, .pow _ b, after) => some (domul (before ++ after), b)
            | some (before, .sym _, after) => some (domul (before ++ after), oneE)
            | some _ => none) = _
          rw [hfind]
          rfl
        · exact Option.noConfusion h
      · exact Option.noConfusion h
    · exact Option.noConfusion h

lemma isAddE_false_parts {t : Expr} (h : isAddE t = false) : addParts t = [t] := by
  cases t <;> simp [isAddE] at h ⊢ <;> rfl

lemma readd_map_parts {kept : List (Expr × Q)}
    (hne : kept ≠ [])
    (hnadd : ∀ p ∈ kept, isAddE p.1 = false) :
    addParts (readd (kept.map Prod.fst)) = kept.map Prod.fst := by
  match kept with
  | [] => exact absurd rfl hne
  | [p] =>
    show addParts (readd [p.1]) = [p.1]
    show addParts p.1 = [p.1]
    exact isAddE_false_parts (hnadd p (by simp))
  | p :: q :: r =>
    show addParts (readd (p.1 :: q.1 :: (r.map Prod.fst))) = _
    show addParts (.add (listToEL (p.1 :: q.1 :: (r.map Prod.fst)))) = _
    show (listToEL (p.1 :: q.1 :: (r.map Prod.fst))).toList = _
    rw [toList_listToEL]
    rfl

lemma seriesE_parts {f : Expr} {w : String} {s : Expr}
    (h : seriesE f w qO = some s) (hnz : s ≠ zeroE) :
    ∃ kept : List (Expr × Q),
      addParts s = kept.map Prod.fst ∧ kept ≠ [] ∧
      ∀ p ∈ kept, (∃ c, decompMono p.1 w = some (c, p.2)) ∧ p.2.le qO = true := by
  unfold seriesE at h
  split at h
  · exact absurd (Option.some.inj h).symm hnz
  · rcases Option.bind_eq_some.mp h with ⟨ds, hds, h2⟩
    have hf2 := mapM_forall2 _ _ _ hds
    have hsr := Option.some.inj h2
    set kept := ds.filter (fun tk => tk.2.le qO) with hkeptdef
    have hmem : ∀ p ∈ kept, (∃ c, decompMono p.1 w = some (c, p.2)) ∧ p.2.le qO = true := by
      intro p hp
      have hpds := List.mem_of_mem_filter hp
      have hple := List.of_mem_filter hp
      rcases forall2_mem_right hf2 p hpds with ⟨t0, _, ht0⟩
      rcases Option.map_eq_some'.mp ht0 with ⟨ck, hck, hpck⟩
      refine ⟨⟨ck.1, ?_⟩, hple⟩
      have h1 : p.1 = t0 := by rw [← hpck]
      have h2' : p.2 = ck.2 := by rw [← hpck]
      rw [h1, h2']
      exact hck
    have hnadd : ∀ p ∈ kept, isAddE p.1 = false := by
      intro p hp
      rcases (hmem p hp).1 with ⟨c, hdec⟩
      exact (decompMono_spec hdec).2.2.2.2
    have hne : kept ≠ [] := by
      intro hk
      rw [hk] at hsr
      exact hnz (hsr.symm)
    refine ⟨kept, ?_, hne, hmem⟩
    rw [← hsr]
    exact readd_map_parts hne hnadd

lemma ltFold_spec (w : String) : ∀ (ts : List Expr) (acc : Expr × Expr) (ka : Q),
    acc.2 = .rat ka → ka.den ≠ 0 →
    (∀ t ∈ ts, ∃ c k, extract t w = some (c, .rat k) ∧ k.den ≠ 0) →
    ∀ (c0 e0 : Expr), ltFold ts acc w = some (c0, e0) →
    ∃ k0 : Q, e0 = .rat k0 ∧ k0.den ≠ 0 ∧ k0.le ka = true ∧
      (((c0, e0) = acc ∧
        ∀ t ∈ ts, ∀ c k, extract t w = some (c, .rat k) → ka.le k = true) ∨
        (∃ t ∈ ts, extract t w = some (c0, e0))) ∧
      (∀ t ∈ ts, ∀ c k, extract t w = some (c, .rat k) → k0.le k = true) := by
  intro ts
  induction ts with
  | nil =>
    intro acc ka hacc hka hts c0 e0 h
    have hae := Option.some.inj h
    refine ⟨ka, by rw [show e0 = acc.2 from by rw [hae], hacc], hka, Q.le_refl' ka, ?_, ?_⟩
    · left
      exact ⟨hae.symm, by intro t ht; cases ht⟩
    · intro t ht; cases ht
  | cons t ts iht =>
    intro acc ka hacc hka hts c0 e0 h
    obtain ⟨c1, k1, hex, hk1⟩ := hts t (List.mem_cons_self _ _)
    rw [show ltFold (t :: ts) acc w =
        ((extract t w).bind fun t2 => (ltE t2.2 acc.2).bind fun b =>
          ltFold ts (if b then t2 else acc) w) from rfl] at h
    rw [hex] at h
    simp only [Option.some_bind] at h
    rw [hacc] at h
    rw [show ltE (c1, Expr.rat k1).2 (Expr.rat ka) = some (k1.lt ka) from rfl] at h
    simp only [Option.some_bind] at h
    have htail : ∀ u ∈ ts, ∃ c k, extract u w = some (c, .rat k) ∧ k.den ≠ 0 :=
      fun u hu => hts u (List.mem_cons_of_mem _ hu)
    split at h
    · rename_i hb
      rcases iht (c1, .rat k1) k1 rfl hk1 htail c0 e0 h with
        ⟨k0, he0, hk0, hle1, hloc, hmin⟩
      have hle : k0.le ka = true :=
        Q.le_trans' hk1 hle1 (Q.lt_imp_le hb)
      refine ⟨k0, he0, hk0, hle, ?_, ?_⟩
      · right
        rcases hloc with ⟨heq, _⟩ | ⟨u, hu, hequ⟩
        · exact ⟨t, List.mem_cons_self _ _, by rw [← heq] at hex; exact hex⟩
        · exact ⟨u, List.mem_cons_of_mem _ hu, hequ⟩
      · intro u hu c k hk
        rcases List.mem_cons.mp hu with rfl | hu2
        · have hpair2 := Option.some.inj (hk.symm.trans hex)
          rw [Prod.mk.injEq] at hpair2
          have hkk : k = k1 := by
            have hkr := hpair2.2
            injection hkr
          rw [hkk]
          exact Q.le_trans' hk1 hle1 (Q.le_refl' k1)
        · exact hmin u hu2 c k hk
    · rename_i hb'
      have hb : k1.lt ka = false := by
        revert hb'; cases k1.lt ka <;> simp
      rcases iht acc ka hacc hka htail c0 e0 h with
        ⟨k0, he0, hk0, hle1, hloc, hmin⟩
      refine ⟨k0, he0, hk0, hle1, ?_, ?_⟩
      · rcases hloc with ⟨heq, hrest⟩ | ⟨u, hu, hequ⟩
        · left
          refine ⟨heq, ?_⟩
          intro u hu c k hk
          rcases List.mem_cons.mp hu with rfl | hu2
          · have hpair2 := Option.some.inj (hk.symm.trans hex)
            rw [Prod.mk.injEq] at hpair2
            have hkk : k = k1 := by
              have hkr := hpair2.2
              injection hkr
            rw [hkk]
            exact Q.not_lt_iff.mp hb
          · exact hrest u hu2 c k hk
        · right
          exact ⟨u, List.mem_cons_of_mem _ hu, hequ⟩
      · intro u hu c k hk
        rcases List.mem_cons.mp hu with rfl | hu2
        · have hpair2 := Option.some.inj (hk.symm.trans hex)
          rw [Prod.mk.injEq] at hpair2
          have hkk : k = k1 := by
            have hkr := hpair2.2
            injection hkr
          rw [hkk]
          exact Q.le_trans' hka hle1 (Q.not_lt_iff.mp hb)
        · exact hmin u hu2 c k hk

theorem leadterm_nonadd_core {w : String} {s c0 e0 : Expr}
    (hparts2 : addParts s = [s])
    (hfacts : ∀ t ∈ addParts s, ∃ c k, decompMono t w = some (c, k) ∧ k.le qO = true)
    (hl : extract s w = some (c0, e0)) :
    c0 ≠ zeroE ∧ has c0 w = false ∧
    (∃ t ∈ addParts s, extract t w = some (c0, e0)) ∧
    ∃ k0 : Q, e0 = .rat k0 ∧
      ∀ t ∈ addParts s, ∀ c : Expr, ∀ k : Q,
        decompMono t w = some (c, k) → k0.le k = true := by
  have hsmem : s ∈ addParts s := by rw [hparts2]; simp
  rcases hfacts s hsmem with ⟨c, k, hdec, hle⟩
  have hspec := decompMono_spec hdec
  have hp := Option.some.inj (hspec.1.symm.trans hl)
  rw [Prod.mk.injEq] at hp
  refine ⟨hp.1 ▸ hspec.2.1, hp.1 ▸ hspec.2.2.1, ⟨s, hsmem, hl⟩, k, hp.2.symm, ?_⟩
  intro t ht c2 k2 hdec2
  rw [hparts2] at ht
  rcases List.mem_singleton.mp ht with rfl
  have hp2 := Option.some.inj (hdec2.symm.trans hdec)
  rw [Prod.mk.injEq] at hp2
  rw [hp2.2]
  exact Q.le_refl' k

/-- Claim C4: when the one-term series expansion of `f` in `w` succeeds
(and is nonzero, as `leadterm` asserts), `leadterm(f, w)` returns a pair
`(c₀, e₀)` that is the extraction of one of the series' additive
summands, with `e₀` a rational exponent that is minimal among the
summands' `w`-exponents, `c₀` nonzero, and `c₀` not depending on `w`. -/
theorem leadterm_minimal {f : Expr} {w : String} {s c0 e0 : Expr}
    (hs : seriesE f w qO = some s) (hnz : s ≠ zeroE)
    (hl : leadterm f w = some (c0, e0)) :
    c0 ≠ zeroE ∧ has c0 w = false ∧
    (∃ t ∈ addParts s, extract t w = some (c0, e0)) ∧
    ∃ k0 : Q, e0 = .rat k0 ∧
      ∀ t ∈ addParts s, ∀ c : Expr, ∀ k : Q,
        decompMono t w = some (c, k) → k0.le k = true := by
  obtain ⟨kept, hparts, hne, hmem⟩ := seriesE_parts hs hnz
  have hfacts : ∀ t ∈ addParts s, ∃ c k, decompMono t w = some (c, k) ∧ k.le qO = true := by
    intro t ht
    rw [hparts] at ht
    rcases List.mem_map.mp ht with ⟨p, hp, rfl⟩
    rcases hmem p hp with ⟨⟨c, hdec⟩, hle⟩
    exact ⟨c, p.2, hdec, hle⟩
  rw [show leadterm f w = ((seriesE f w qO).bind fun s2 =>
      if s2 = zeroE then none
      else match s2 with
      | .add l => ltFold l.toList (zeroE, .rat ⟨10000000000, 1⟩) w
      | t => extract t w) from rfl] at hl
  rw [hs] at hl
  simp only [Option.some_bind] at hl
  rw [if_neg hnz] at hl
  by_cases hadd : isAddE s = true
  · obtain ⟨l2, rfl⟩ : ∃ l2, s = .add l2 := by
      cases s <;> simp [isAddE] at hadd ⊢
    replace hl : ltFold (ExprList.toList l2) (zeroE, .rat ⟨10000000000, 1⟩) w =
        some (c0, e0) := hl
    have hts : ∀ t ∈ ExprList.toList l2,
        ∃ c k, extract t w = some (c, .rat k) ∧ k.den ≠ 0 := by
      intro t ht
      rcases hfacts t ht with ⟨c, k, hdec, _⟩
      have hspec := decompMono_spec hdec
      exact ⟨c, k, hspec.1, hspec.2.2.2.1⟩
    rcases ltFold_spec w (ExprList.toList l2) (zeroE, .rat ⟨10000000000, 1⟩)
        ⟨10000000000, 1⟩ rfl (by decide) hts c0 e0 hl with
      ⟨k0, he0, hk0den, hk0le, hloc, hmin⟩
    have hloc2 : ∃ t ∈ ExprList.toList l2, extract t w = some (c0, e0) := by
      rcases hloc with ⟨heq, hallge⟩ | h2
      · exfalso
        have hne2 : ExprList.toList l2 ≠ [] := by
          intro h0
          rw [show addParts (Expr.add l2) = ExprList.toList l2 from rfl, h0] at hparts
          exact hne (List.map_eq_nil_iff.mp hparts.symm)
        obtain ⟨t1, ht1⟩ := List.exists_mem_of_ne_nil _ hne2
        rcases hts t1 ht1 with ⟨c1, k1, hex1, hk1⟩
        have hbig := hallge t1 ht1 c1 k1 hex1
        rcases hfacts t1 ht1 with ⟨c2, k2, hdec1, hle1⟩
        have hex2 := (decompMono_spec hdec1).1
        have hp := Option.some.inj (hex2.symm.trans hex1)
        rw [Prod.mk.injEq] at hp
        have hkk : k2 = k1 := by
          have hkr := hp.2
          injection hkr
        rw [← hkk] at hbig hk1
        have : Q.le ⟨10000000000, 1⟩ qO = true :=
          Q.le_trans' ((decompMono_spec hdec1).2.2.2.1) hbig hle1
        exact absurd this (by decide)
      · exact h2
    rcases hloc2 with ⟨t3, ht3, hext3⟩
    rcases hfacts t3 ht3 with ⟨c3, k3, hdec3, hle3⟩
    have hspec3 := decompMono_spec hdec3
    have hp := Option.some.inj (hspec3.1.symm.trans hext3)
    rw [Prod.mk.injEq] at hp
    refine ⟨hp.1 ▸ hspec3.2.1, hp.1 ▸ hspec3.2.2.1, ⟨t3, ht3, hext3⟩, k0, he0, ?_⟩
    intro t ht c k hdec
    have hext := (decompMono_spec hdec).1
    exact hmin t ht c k hext
  · have hadd2 : isAddE s = false := by revert hadd; cases isAddE s <;> simp
    have hparts2 : addParts s = [s] := isAddE_false_parts hadd2
    cases s
    all_goals first
      | exact leadterm_nonadd_core hparts2 hfacts hl
      | exact Bool.noConfusion hadd2

def c4wit : Expr :=
  .add (listToEL [.mul (listToEL [.sym "a", .pow (.sym "w") (.rat qNegOne)]), .sym "w"])

theorem leadterm_minimal_witness :
    seriesE c4wit "w" qO = some c4wit ∧ c4wit ≠ zeroE ∧
    leadterm c4wit "w" = some (.sym "a", .rat qNegOne) ∧
    ((Expr.sym "a") ≠ zeroE ∧ has (.sym "a") "w" = false ∧
      (∃ t ∈ addParts c4wit, extract t "w" = some (.sym "a", .rat qNegOne)) ∧
      ∃ k0 : Q, (Expr.rat qNegOne) = .rat k0 ∧
        ∀ t ∈ addParts c4wit, ∀ c : Expr, ∀ k : Q,
          decompMono t "w" = some (c, k) → k0.le k = true) :=
  ⟨by decide, by decide, by decide,
    @leadterm_minimal c4wit "w" c4wit (.sym "a") (.rat qNegOne)
      (by decide) (by decide) (by decide)⟩

theorem mrvKeys_spec {k : Nat} {Om : List Expr} {x : String} {ks : List (Expr × Nat)}
    (h : mrvKeys k Om x = some ks) :
    ks.map Prod.fst = Om ∧
    ∀ p ∈ ks, ∃ j mset, mrv j p.1 x = some mset ∧ mset.length = p.2 := by
  cases k with
  | zero => exact Option.noConfusion h
  | succ j =>
    have h1 : Om.mapM (fun t => (mrv j t x).map (fun m => (t, m.length))) = some ks := h
    have h2 := mapM_forall2 _ _ _ h1
    constructor
    · clear h h1
      induction h2 with
      | nil => rfl
      | cons hR _ ih =>
        rcases Option.map_eq_some'.mp hR with ⟨mset, _, hb⟩
        subst hb
        rw [List.map_cons, ih]
    · intro p hp
      rcases forall2_mem_right h2 p hp with ⟨t, _, hR⟩
      rcases Option.map_eq_some'.mp hR with ⟨mset, hm, hb⟩
      subst hb
      exact ⟨j, mset, hm, rfl⟩

theorem sortOmega_spec {k : Nat} {Om Os : List Expr} {x : String}
    (h : sortOmega k Om x = some Os) :
    Os.Perm Om ∧
    (2 ≤ Om.length → ∃ m ks, mrvKeys m Om x = some ks ∧ ks.map Prod.fst = Om ∧
      (∀ p ∈ ks, ∃ j mset, mrv j p.1 x = some mset ∧ mset.length = p.2) ∧
      Os = (List.insertionSort (fun p q : Expr × Nat => q.2 ≤ p.2) ks).map Prod.fst ∧
      List.Pairwise (fun p q : Expr × Nat => q.2 ≤ p.2)
        (List.insertionSort (fun p q : Expr × Nat => q.2 ≤ p.2) ks)) := by
  cases k with
  | zero => exact Option.noConfusion h
  | succ m =>
    have h2 : (if Om.length ≤ 1 then some Om
        else (mrvKeys m Om x).bind fun ks =>
          some ((List.insertionSort (fun p q : Expr × Nat => q.2 ≤ p.2) ks).map Prod.fst))
        = some Os := h
    split at h2
    · rename_i hle
      cases Option.some.inj h2
      exact ⟨List.Perm.refl _, fun hge => absurd hge (by omega)⟩
    · rcases Option.bind_eq_some.mp h2 with ⟨ks, hks, hOs⟩
      have hOsEq := Option.some.inj hOs
      rcases mrvKeys_spec hks with ⟨hmap, hmem⟩
      haveI : IsTotal (Expr × Nat) (fun p q => q.2 ≤ p.2) :=
        ⟨fun a b => Nat.le_total b.2 a.2⟩
      haveI : IsTrans (Expr × Nat) (fun p q => q.2 ≤ p.2) :=
        ⟨fun a b c hab hbc => Nat.le_trans hbc hab⟩
      constructor
      · rw [← hOsEq, ← hmap]
        exact List.Perm.map Prod.fst (List.perm_insertionSort _ ks)
      · intro _
        exact ⟨m, ks, hks, hmap, hmem, hOsEq.symm, List.sorted_insertionSort _ ks⟩

theorem rewriteO2_spec {k : Nat} {Os : List Expr} {garg v : Expr} {x : String}
    {O2 : List Expr} (h : rewriteO2 k Os garg v x = some O2) :
    List.Forall₂ (fun f b => ∃ m c,
      mrvleadterm m (.mul (listToEL [argOf f, .pow garg (.rat qNegOne)])) x none
        = some (c, zeroE) ∧
      b = mkMul [mkExp (mkAdd [argOf f, mkMul [.rat qNegOne, c, garg]]), mkPow v c])
      Os O2 := by
  cases k with
  | zero => exact Option.noConfusion h
  | succ m =>
    have h1 : Os.mapM (fun f =>
        (mrvleadterm m (.mul (listToEL [argOf f, .pow garg (.rat qNegOne)])) x none).bind
          (fun c => if c.2 = zeroE then
            some (mkMul [mkExp (mkAdd [argOf f, mkMul [.rat qNegOne, c.1, garg]]),
              mkPow v c.1])
          else none)) = some O2 := h
    refine List.Forall₂.imp ?_ (mapM_forall2 _ _ _ h1)
    intro f b hfb
    rcases Option.bind_eq_some.mp hfb with ⟨c, hc, hif⟩
    split at hif
    · rename_i hz
      have hce : (c.1, zeroE) = c := by rw [← hz]
      exact ⟨m, c.1, by rw [hce]; exact hc, (Option.some.inj hif).symm⟩
    · exact Option.noConfusion hif

/-- Claim C3: a successful `rewrite(e, Ω, x, wsym)` passes the entry
assertions, sorts `Ω` descending by the size of `mrv(tᵢ, x)` (stably, via
the key list; a permutation of `Ω` ordered so the mrv-set sizes never
increase), takes `g = Ω[−1]` — the last element of the sorted list — as
the representative, uses `1/w` as the substitution variable exactly when
`sign(arg(g), x) = +1` and `w` otherwise, and replaces every `f ∈ Ω` in
`e` (in sorted order) by `exp(arg(f) − c·arg(g))·vᶜ` where
`mrvleadterm(arg(f)/arg(g), x) = (c, 0)`. -/
theorem rewrite_sorted_substitution {n : Nat} {e : Expr} {Om : List Expr} {x : String}
    {wsym r : Expr} (h : rewrite n e Om x wsym = some r) :
    rewriteEntry Om = true ∧
    ∃ Os : List Expr, ∃ sg : Int, ∃ O2 : List Expr,
      (∃ k, sortOmega k Om x = some Os) ∧
      Os.Perm Om ∧
      (2 ≤ Om.length → ∃ m ks, mrvKeys m Om x = some ks ∧ ks.map Prod.fst = Om ∧
        (∀ p ∈ ks, ∃ j mset, mrv j p.1 x = some mset ∧ mset.length = p.2) ∧
        Os = (List.insertionSort (fun p q : Expr × Nat => q.2 ≤ p.2) ks).map Prod.fst ∧
        List.Pairwise (fun p q : Expr × Nat => q.2 ≤ p.2)
          (List.insertionSort (fun p q : Expr × Nat => q.2 ≤ p.2) ks)) ∧
      sign (argOf (Os.getLastD zeroE)) x = some sg ∧
      List.Forall₂ (fun f b => ∃ m c,
        mrvleadterm m (.mul (listToEL [argOf f,
            .pow (argOf (Os.getLastD zeroE)) (.rat qNegOne)])) x none
          = some (c, zeroE) ∧
        b = mkMul [mkExp (mkAdd [argOf f, mkMul [.rat qNegOne, c, argOf (Os.getLastD zeroE)]]),
          mkPow (if sg = 1 then mkPow wsym (.rat qNegOne) else wsym) c]) Os O2 ∧
      r = (Os.zip O2).foldl (fun f ab => subs f ab.1 ab.2) e := by
  cases n with
  | zero => exact Option.noConfusion h
  | succ n1 =>
    have h1 : (if rewriteEntry Om then rewriteCore n1 e Om x wsym else none) = some r := h
    split at h1
    · rename_i hent
      refine ⟨hent, ?_⟩
      cases n1 with
      | zero => exact Option.noConfusion h1
      | succ n2 =>
        have h2 : (sortOmega n2 Om x).bind (fun Os =>
            (sign (argOf (Os.getLastD zeroE)) x).bind (fun sg =>
              (rewriteO2 n2 Os (argOf (Os.getLastD zeroE))
                  (if sg = 1 then mkPow wsym (.rat qNegOne) else wsym) x).bind (fun O2 =>
                some ((Os.zip O2).foldl (fun f ab => subs f ab.1 ab.2) e)))) = some r := h1
        rcases Option.bind_eq_some.mp h2 with ⟨Os, hOs, h3⟩
        rcases Option.bind_eq_some.mp h3 with ⟨sg, hsg, h4⟩
        rcases Option.bind_eq_some.mp h4 with ⟨O2, hO2, h5⟩
        rcases sortOmega_spec hOs with ⟨hperm, hsort⟩
        exact ⟨Os, sg, O2, ⟨n2, hOs⟩, hperm, hsort, hsg, rewriteO2_spec hO2,
          (Option.some.inj h5).symm⟩
    · exact Option.noConfusion h1

def c3e : Expr := .exp (.mul (listToEL [.rat ⟨2, 1⟩, .sym "x"]))

def c3Om : List Expr := [.exp (.sym "x"), c3e]

def c3r : Expr := .pow (.sym "w") (.rat qNegOne)

theorem rewrite_sorted_substitution_witness :
    rewriteEntry c3Om = true ∧
    ∃ Os : List Expr, ∃ sg : Int, ∃ O2 : List Expr,
      (∃ k, sortOmega k c3Om "x" = some Os) ∧
      Os.Perm c3Om ∧
      (2 ≤ c3Om.length → ∃ m ks, mrvKeys m c3Om "x" = some ks ∧ ks.map Prod.fst = c3Om ∧
        (∀ p ∈ ks, ∃ j mset, mrv j p.1 "x" = some mset ∧ mset.length = p.2) ∧
        Os = (List.insertionSort (fun p q : Expr × Nat => q.2 ≤ p.2) ks).map Prod.fst ∧
        List.Pairwise (fun p q : Expr × Nat => q.2 ≤ p.2)
          (List.insertionSort (fun p q : Expr × Nat => q.2 ≤ p.2) ks)) ∧
      sign (argOf (Os.getLastD zeroE)) "x" = some sg ∧
      List.Forall₂ (fun f b => ∃ m c,
        mrvleadterm m (.mul (listToEL [argOf f,
            .pow (argOf (Os.getLastD zeroE)) (.rat qNegOne)])) "x" none
          = some (c, zeroE) ∧
        b = mkMul [mkExp (mkAdd [argOf f, mkMul [.rat qNegOne, c, argOf (Os.getLastD zeroE)]]),
          mkPow (if sg = 1 then mkPow (Expr.sym "w") (.rat qNegOne) else (Expr.sym "w")) c])
        Os O2 ∧
      c3r = (Os.zip O2).foldl (fun f ab => subs f ab.1 ab.2) c3e :=
  @rewrite_sorted_substitution 50 c3e c3Om "x" (.sym "w") c3r (by decide)

end Gruntz
